import Mathlib

/-!
Verification of the metaball isoline extractor of `homework1/main.cpp`
(graphics-course-practice repository).

The C++ core is embedded shallowly:
* `float` scalars are modelled as exact rationals `ℚ`; comparisons and the
  branch structure of the code translate verbatim.
* IEEE divisions that can produce a non-finite result (NaN or an infinity)
  are modelled by `fdiv`, which returns `none` exactly when the denominator
  is zero; a coordinate that the C++ code would fill with a non-finite
  float is `none` in the model.
* C++ `int` loop counters and vertex indices are `Int`; loops
  `for (int i = 0; i < n; i++)` become iteration over `List.range n.toNat`,
  which is empty for non-positive `n`, exactly like the C++ loop.
* `std::vector` is `List`; reads `v[i]` are modelled with `List.getD`
  (the embedded programs only read in-bounds indices in the runs the
  theorems are about).
* `std::map<std::pair<int,int>, int>` (the per-isoline interpolation cache)
  is an association list with decidable key lookup; only lookup and insert
  are used, so the association list has the same observable behaviour.
-/

/-- A 2D point / vector with exact rational coordinates
(models `glm::vec2`). -/
structure Vec2 where
  x : ℚ
  y : ℚ
deriving DecidableEq, Repr

/-- A 2D point whose coordinates may be non-finite: `none` models a float
NaN / infinity produced by a division by zero. -/
structure OVec2 where
  x : Option ℚ
  y : Option ℚ
deriving DecidableEq, Repr

/-- IEEE-style division marker: a zero denominator yields a non-finite
float (NaN when the numerator is also zero, ±∞ otherwise), modelled as
`none`; otherwise the exact quotient. -/
def fdiv (a b : ℚ) : Option ℚ :=
  if b = 0 then none else some (a / b)

/-- One metaball source (struct `metaball` in the C++ source): position,
velocity (`direction`), radius parameter `r` and weight `c`. -/
structure Metaball where
  position : Vec2
  direction : Vec2
  r : ℚ
  c : ℚ
deriving DecidableEq, Repr

/-- The per-source body of `metaball_function::apply_movement`: the
position is updated by `dt * direction` on each axis, then for each axis
independently the direction component is negated when the post-update
absolute coordinate exceeds 5. -/
def applyMovementBall (dt : ℚ) (m : Metaball) : Metaball :=
  let px := m.position.x + dt * m.direction.x
  let py := m.position.y + dt * m.direction.y
  let dx := if 5 < |px| then -m.direction.x else m.direction.x
  let dy := if 5 < |py| then -m.direction.y else m.direction.y
  { m with position := ⟨px, py⟩, direction := ⟨dx, dy⟩ }

/-- `metaball_function::apply_movement`: the loop over the source vector,
applying the per-source update in place. -/
def apply_movement (dt : ℚ) (metaballs : List Metaball) : List Metaball :=
  metaballs.map (applyMovementBall dt)

/-- The vertex-position loop of the `grid` constructor: for
`i = 0..height`, `j = 0..width` (both inclusive) push
`(2/width * j - 1, -(2/height * i - 1))`, row-major with `i` outermost. -/
def gridPositions (width height : Int) : List Vec2 :=
  (List.range (height + 1).toNat).flatMap fun (i : ℕ) =>
    (List.range (width + 1).toNat).map fun (j : ℕ) =>
      ⟨2 / (width : ℚ) * (j : ℚ) - 1, -(2 / (height : ℚ) * (i : ℚ) - 1)⟩

/-- The triangle-index loop of the `grid` constructor: for each cell
`(i, j)` with `i < height`, `j < width`, `ind = i*(width+1)+j`, push the
six indices of the cell's two triangles in the order of the C++ code. -/
def gridIndices (width height : Int) : List Int :=
  (List.range height.toNat).flatMap fun (i : ℕ) =>
    (List.range width.toNat).flatMap fun (j : ℕ) =>
      let ind : Int := (i : Int) * (width + 1) + (j : Int)
      [ind + width + 1, ind + 1, ind,
       ind + 1, ind + width + 1, ind + width + 2]

/-- The `grid` struct: stored dimensions plus the derived vertex positions
and triangle index list, built once at construction. The constructor
performs no validation of `width`/`height`. -/
structure Grid where
  width : Int
  height : Int
  positions : List Vec2
  indices : List Int
deriving Repr

/-- The `grid` constructor `grid::grid(int width, int height)`. -/
def grid (width height : Int) : Grid :=
  ⟨width, height, gridPositions width height, gridIndices width height⟩

/-- The `function_values` struct: sampled field values and derived colors,
parallel to the grid's vertex list, plus the sampled min/max. -/
structure FunctionValues where
  values : List ℚ
  colors : List (Option ℚ × Option ℚ × Option ℚ)
  min_value : ℚ
  max_value : ℚ
deriving Repr

/-- `metaball_function::value_to_color`: `c = (value - min)/(max - min)`,
then the tint `(1 - 0.4c, 1 - 0.6c, 1 - c)`. The division is the IEEE
model `fdiv`, so a degenerate field with `min = max` makes `c` non-finite
and poisons every channel, exactly as the unguarded float code does. -/
def value_to_color (value min_value max_value : ℚ) :
    Option ℚ × Option ℚ × Option ℚ :=
  match fdiv (value - min_value) (max_value - min_value) with
  | none => (none, none, none)
  | some c => (some (1 - 2/5 * c), some (1 - 3/5 * c), some (1 - c))

/-- `interpolate_coords`: on a horizontal edge (`coord1.y == coord2.y`)
interpolate the x coordinate, otherwise the y coordinate, with fraction
`(value - value1) / (value2 - value1)`. The division is the IEEE model
`fdiv`: when `value1 = value2` the varying coordinate is non-finite
(`none`), as in the unguarded float code. -/
def interpolate_coords (coord1 coord2 : Vec2) (value1 value2 value : ℚ) :
    OVec2 :=
  if coord1.y = coord2.y then
    ⟨(fdiv (value - value1) (value2 - value1)).map
        (fun t => coord1.x + t * (coord2.x - coord1.x)),
      some coord1.y⟩
  else
    ⟨some coord1.x,
      (fdiv (value - value1) (value2 - value1)).map
        (fun t => coord1.y + t * (coord2.y - coord1.y))⟩

/-- The `positive` counter of `add_isoline`: how many of the four corner
differences are strictly positive. -/
def positiveCount (d : ℕ → ℚ) : ℕ :=
  ((List.range 4).filter fun k => 0 < d k).length

/-- The `switch (positive)` classification of `add_isoline`, producing the
list of corner-pair crossings (`needs_interpolation` in the C++ code) in
emission order. Corners are numbered cyclically `0 =` top-left,
`1 =` bottom-left, `2 =` bottom-right, `3 =` top-right, and `d k` is the
corner value minus the iso-value. -/
def needsInterpolation (d : ℕ → ℚ) : List (ℕ × ℕ) :=
  let positive := positiveCount d
  if positive = 1 ∨ positive = 3 then
    (List.range 4).flatMap fun k =>
      if d k * d ((k + 3) % 4) < 0 ∧ d k * d ((k + 1) % 4) < 0 then
        [(k, (k + 3) % 4), (k, (k + 1) % 4)]
      else []
  else if positive = 2 then
    if 0 < d 0 * d 1 then [(0, 3), (1, 2)]
    else if 0 < d 0 * d 3 then [(0, 1), (2, 3)]
    else [(0, 1), (1, 2), (0, 3), (2, 3)]
  else []

/-- One cell of `add_isoline`: the cell's four global grid-vertex indices
`grid_inds = [ind, ind+width+1, ind+width+2, ind+1]`, the corner
differences, and the emitted crossings mapped to global index pairs. -/
def cellPairs (width : Int) (values : List ℚ) (isoline_value : ℚ)
    (i j : ℕ) : List (Int × Int) :=
  let ind : Int := (i : Int) * (width + 1) + (j : Int)
  let g : ℕ → Int := fun k =>
    [ind, ind + width + 1, ind + width + 2, ind + 1].getD k 0
  let d : ℕ → ℚ := fun k => values.getD (g k).toNat 0 - isoline_value
  (needsInterpolation d).map fun pr => (g pr.1, g pr.2)

/-- The full emission sequence of one `add_isoline` call: cells scanned
row-major (`i` outer, `j` inner), each contributing its crossings in
order. -/
def emissionList (g : Grid) (values : List ℚ) (isoline_value : ℚ) :
    List (Int × Int) :=
  (List.range g.height.toNat).flatMap fun i =>
    (List.range g.width.toNat).flatMap fun j =>
      cellPairs g.width values isoline_value i j

/-- The mutable state threaded through one `add_isoline` call: the
per-isoline interpolation cache `indices_after_interpolation` plus the
accumulated output position and index lists of the `isolines` struct. -/
structure AddState where
  cache : List ((Int × Int) × ℕ)
  positions : List OVec2
  indices : List ℕ
deriving Repr

/-- Lookup in the interpolation cache (`std::map::contains` /
`operator[]` read): the value stored under the exact (ordered) key. -/
def cacheLookup (cache : List ((Int × Int) × ℕ)) (key : Int × Int) :
    Option ℕ :=
  match cache with
  | [] => none
  | kv :: rest => if kv.1 = key then some kv.2 else cacheLookup rest key

/-- Processing of one emitted crossing in `add_isoline`: on a cache hit
push the cached position index; on a miss interpolate a new position,
append it, record its index (the pre-append length, i.e.
`positions.size() - 1` after the push) in the cache, and push it. -/
def processEmission (g : Grid) (values : List ℚ) (isoline_value : ℚ)
    (st : AddState) (key : Int × Int) : AddState :=
  match cacheLookup st.cache key with
  | some idx => { st with indices := st.indices ++ [idx] }
  | none =>
      let pos := interpolate_coords
        (g.positions.getD key.1.toNat ⟨0, 0⟩)
        (g.positions.getD key.2.toNat ⟨0, 0⟩)
        (values.getD key.1.toNat 0)
        (values.getD key.2.toNat 0)
        isoline_value
      let newIdx := st.positions.length
      { cache := (key, newIdx) :: st.cache,
        positions := st.positions ++ [pos],
        indices := st.indices ++ [newIdx] }

/-- The whole body of `add_isoline`, returning the final state (cache
included) after folding the emission sequence over the incoming output
buffers, starting from an empty cache. -/
def addIsolineState (iso_positions : List OVec2) (iso_indices : List ℕ)
    (g : Grid) (values : List ℚ) (isoline_value : ℚ) : AddState :=
  (emissionList g values isoline_value).foldl
    (processEmission g values isoline_value)
    ⟨[], iso_positions, iso_indices⟩

/-- The `isolines` struct: requested isoline count plus the accumulated
contour positions and line-list indices. -/
structure Isolines where
  count : Int
  positions : List OVec2
  indices : List ℕ
deriving Repr

/-- `add_isoline`: extends the `isolines` buffers with the crossings of
one iso-value, using a fresh per-call interpolation cache. -/
def add_isoline (iso : Isolines) (g : Grid) (fv : FunctionValues)
    (isoline_value : ℚ) : Isolines :=
  let st := addIsolineState iso.positions iso.indices g fv.values
    isoline_value
  { iso with positions := st.positions, indices := st.indices }

/-- The iso-value levels chosen by `calculate_isolines`:
`min + (max - min) * i / (count + 1)` for `i = 1..count`. -/
def isolineLevels (fv : FunctionValues) (count : Int) : List ℚ :=
  (List.range count.toNat).map fun (i : ℕ) =>
    fv.min_value + (fv.max_value - fv.min_value) * ((i : ℚ) + 1)
      / ((count : ℚ) + 1)

/-- `calculate_isolines`: starting from empty buffers, add one isoline per
level. A non-positive `isolines_count` makes the loop body never run. -/
def calculate_isolines (g : Grid) (fv : FunctionValues) (count : Int) :
    Isolines :=
  (isolineLevels fv count).foldl (fun iso L => add_isoline iso g fv L)
    ⟨count, [], []⟩

/-! ### Helper lemmas about the interpolation cache and the emission fold -/

theorem cacheLookup_eq_none_iff (c : List ((Int × Int) × ℕ))
    (k : Int × Int) : cacheLookup c k = none ↔ k ∉ c.map Prod.fst := by
  induction c with
  | nil => simp [cacheLookup]
  | cons kv rest ih =>
      simp only [cacheLookup, List.map_cons, List.mem_cons]
      by_cases h : kv.1 = k
      · simp [h]
      · rw [if_neg h, ih]
        simp only [not_or]
        constructor
        · intro hn; exact ⟨fun he => h he.symm, hn⟩
        · intro hn; exact hn.2

theorem cacheLookup_some_mem {c : List ((Int × Int) × ℕ)} {k : Int × Int}
    {i : ℕ} (h : cacheLookup c k = some i) : (k, i) ∈ c := by
  induction c with
  | nil => simp [cacheLookup] at h
  | cons kv rest ih =>
      by_cases hk : kv.1 = k
      · simp [cacheLookup, hk] at h
        subst hk
        simp [← h]
      · simp [cacheLookup, hk] at h
        exact List.mem_cons_of_mem _ (ih h)

theorem foldl_process_cache_nodup (g : Grid) (v : List ℚ) (L : ℚ)
    (es : List (Int × Int)) :
    ∀ st : AddState, (st.cache.map Prod.fst).Nodup →
      ((es.foldl (processEmission g v L) st).cache.map Prod.fst).Nodup := by
  induction es with
  | nil => intro st h; simpa using h
  | cons e rest ih =>
      intro st h
      simp only [List.foldl_cons]
      apply ih
      unfold processEmission
      cases hc : cacheLookup st.cache e with
      | some idx => simpa using h
      | none =>
          simp only [List.map_cons, List.nodup_cons]
          exact ⟨(cacheLookup_eq_none_iff _ _).1 hc, h⟩

theorem foldl_process_pos_cache_len (g : Grid) (v : List ℚ) (L : ℚ)
    (es : List (Int × Int)) :
    ∀ st : AddState,
      (es.foldl (processEmission g v L) st).positions.length
          + st.cache.length
        = st.positions.length
          + (es.foldl (processEmission g v L) st).cache.length := by
  induction es with
  | nil => intro st; simp
  | cons e rest ih =>
      intro st
      simp only [List.foldl_cons]
      have hstep := ih (processEmission g v L st e)
      unfold processEmission at hstep ⊢
      cases hc : cacheLookup st.cache e with
      | some idx => simp only [hc] at hstep ⊢; omega
      | none => simp only [hc] at hstep ⊢; simp at hstep ⊢; omega

theorem foldl_process_bounds (g : Grid) (v : List ℚ) (L : ℚ)
    (es : List (Int × Int)) :
    ∀ st : AddState,
      (∀ i ∈ st.indices, i < st.positions.length) →
      (∀ kv ∈ st.cache, kv.2 < st.positions.length) →
      (∀ i ∈ (es.foldl (processEmission g v L) st).indices,
          i < (es.foldl (processEmission g v L) st).positions.length) ∧
      (∀ kv ∈ (es.foldl (processEmission g v L) st).cache,
          kv.2 < (es.foldl (processEmission g v L) st).positions.length) := by
  induction es with
  | nil => intro st h1 h2; exact ⟨h1, h2⟩
  | cons e rest ih =>
      intro st h1 h2
      simp only [List.foldl_cons]
      apply ih
      · unfold processEmission
        cases hc : cacheLookup st.cache e with
        | some idx =>
            intro i hi
            simp only [List.mem_append, List.mem_singleton] at hi
            rcases hi with hi | hi
            · exact h1 i hi
            · subst hi; exact h2 _ (cacheLookup_some_mem hc)
        | none =>
            intro i hi
            simp only [List.mem_append, List.mem_singleton] at hi
            simp only [List.length_append, List.length_singleton]
            rcases hi with hi | hi
            · exact Nat.lt_succ_of_lt (h1 i hi)
            · subst hi; exact Nat.lt_succ_self _
      · unfold processEmission
        cases hc : cacheLookup st.cache e with
        | some idx => exact h2
        | none =>
            intro kv hkv
            simp only [List.mem_cons] at hkv
            simp only [List.length_append, List.length_singleton]
            rcases hkv with hkv | hkv
            · subst hkv; exact Nat.lt_succ_self _
            · exact Nat.lt_succ_of_lt (h2 kv hkv)

theorem foldl_process_indices_len (g : Grid) (v : List ℚ) (L : ℚ)
    (es : List (Int × Int)) :
    ∀ st : AddState,
      (es.foldl (processEmission g v L) st).indices.length
        = st.indices.length + es.length := by
  induction es with
  | nil => intro st; simp
  | cons e rest ih =>
      intro st
      simp only [List.foldl_cons, List.length_cons]
      rw [ih]
      unfold processEmission
      cases hc : cacheLookup st.cache e <;> simp <;> omega

theorem flatMap_even_length {α β : Type} (l : List α) (f : α → List β)
    (h : ∀ x ∈ l, Even (f x).length) : Even (l.flatMap f).length := by
  induction l with
  | nil => simp
  | cons a rest ih =>
      simp only [List.flatMap_cons, List.length_append]
      exact (h a (List.mem_cons_self a rest)).add
        (ih fun x hx => h x (List.mem_cons_of_mem a hx))

theorem needsInterpolation_even_length (d : ℕ → ℚ) :
    Even (needsInterpolation d).length := by
  unfold needsInterpolation
  by_cases h13 : positiveCount d = 1 ∨ positiveCount d = 3
  · rw [if_pos h13]
    apply flatMap_even_length
    intro k _
    split
    · exact ⟨1, rfl⟩
    · exact ⟨0, rfl⟩
  · rw [if_neg h13]
    by_cases h2 : positiveCount d = 2
    · rw [if_pos h2]
      split
      · exact ⟨1, rfl⟩
      · split
        · exact ⟨1, rfl⟩
        · exact ⟨2, rfl⟩
    · rw [if_neg h2]
      exact ⟨0, rfl⟩

theorem emissionList_even_length (g : Grid) (v : List ℚ) (L : ℚ) :
    Even (emissionList g v L).length := by
  unfold emissionList
  apply flatMap_even_length
  intro i _
  apply flatMap_even_length
  intro j _
  unfold cellPairs
  simpa using needsInterpolation_even_length _

theorem add_isoline_positions (iso : Isolines) (g : Grid)
    (fv : FunctionValues) (L : ℚ) :
    (add_isoline iso g fv L).positions
      = (addIsolineState iso.positions iso.indices g fv.values L).positions :=
  rfl

theorem add_isoline_indices (iso : Isolines) (g : Grid)
    (fv : FunctionValues) (L : ℚ) :
    (add_isoline iso g fv L).indices
      = (addIsolineState iso.positions iso.indices g fv.values L).indices :=
  rfl

theorem add_isoline_bounds (iso : Isolines) (g : Grid)
    (fv : FunctionValues) (L : ℚ)
    (h : ∀ i ∈ iso.indices, i < iso.positions.length) :
    ∀ i ∈ (add_isoline iso g fv L).indices,
      i < (add_isoline iso g fv L).positions.length := by
  rw [add_isoline_positions, add_isoline_indices]
  exact (foldl_process_bounds g fv.values L _ ⟨[], iso.positions, iso.indices⟩
    h (by simp)).1

theorem add_isoline_even (iso : Isolines) (g : Grid)
    (fv : FunctionValues) (L : ℚ) (h : Even iso.indices.length) :
    Even (add_isoline iso g fv L).indices.length := by
  rw [add_isoline_indices]
  unfold addIsolineState
  rw [foldl_process_indices_len]
  exact h.add (emissionList_even_length g fv.values L)

theorem calc_isolines_fold_inv (g : Grid) (fv : FunctionValues)
    (levels : List ℚ) :
    ∀ iso : Isolines,
      (∀ i ∈ iso.indices, i < iso.positions.length) →
      Even iso.indices.length →
      (∀ i ∈ (levels.foldl (fun st L => add_isoline st g fv L) iso).indices,
          i < ((levels.foldl (fun st L => add_isoline st g fv L) iso)
                ).positions.length) ∧
      Even ((levels.foldl (fun st L => add_isoline st g fv L) iso)
          ).indices.length := by
  induction levels with
  | nil => intro iso h1 h2; exact ⟨h1, h2⟩
  | cons lv rest ih =>
      intro iso h1 h2
      simp only [List.foldl_cons]
      exact ih (add_isoline iso g fv lv)
        (add_isoline_bounds iso g fv lv h1)
        (add_isoline_even iso g fv lv h2)

theorem length_flatMap_const {α β : Type} (l : List α) (f : α → List β)
    (c : ℕ) (h : ∀ x ∈ l, (f x).length = c) :
    (l.flatMap f).length = l.length * c := by
  induction l with
  | nil => simp
  | cons a rest ih =>
      simp only [List.flatMap_cons, List.length_append, List.length_cons]
      rw [h a (List.mem_cons_self a rest),
        ih fun x hx => h x (List.mem_cons_of_mem a hx)]
      ring

theorem getD_flatMap_rows {α : Type} (n : ℕ) :
    ∀ (m : ℕ) (g : ℕ → List α), (∀ i, (g i).length = n) →
      ∀ (i j : ℕ) (d : α), i < m → j < n →
        (((List.range m).flatMap g).getD (i * n + j) d) = (g i).getD j d := by
  intro m
  induction m with
  | zero => intro g hg i j d hi; omega
  | succ m ih =>
      intro g hg i j d hi hj
      rw [List.range_succ_eq_map, List.flatMap_cons, List.flatMap_map]
      cases i with
      | zero =>
          simp only [Nat.zero_mul, Nat.zero_add]
          rw [List.getD_append]
          rw [hg 0]; exact hj
      | succ i =>
          rw [List.getD_append_right]
          · rw [hg 0]
            have harith : (i + 1) * n + j - n = i * n + j := by
              rw [Nat.succ_mul]; omega
            rw [harith]
            exact ih (fun x => g (x + 1)) (fun x => hg (x + 1)) i j d
              (by omega) hj
          · rw [hg 0, Nat.succ_mul]; omega

/-! ### Concrete-evaluation helpers -/

theorem tn0 : Int.toNat 0 = 0 := rfl

theorem tn1 : Int.toNat 1 = 1 := rfl

theorem tn2 : Int.toNat 2 = 2 := rfl

theorem tn3 : Int.toNat 3 = 3 := rfl

theorem tn4 : Int.toNat 4 = 4 := rfl

theorem tn5 : Int.toNat 5 = 5 := rfl

/-- The sampled field of the shared-edge scenario: a 2×1 grid (vertices
numbered 0..5, row-major) whose values put vertex 4 and the right column
above the iso-value 0, so the two cells share the crossing on the vertical
edge between vertices 1 and 4. -/
def ceValues : List ℚ := [-1, -1, 1, -1, 1, 1]

theorem ce_cell0 : cellPairs 2 ceValues 0 0 0 = [(4, 3), (4, 1)] := by
  simp only [cellPairs, needsInterpolation, positiveCount, ceValues]
  norm_num [tn0, tn1, tn2, tn3, tn4, tn5, List.range_succ, List.filter,
    List.getD]

theorem ce_cell1 : cellPairs 2 ceValues 0 0 1 = [(1, 2), (1, 4)] := by
  simp only [cellPairs, needsInterpolation, positiveCount, ceValues]
  norm_num [tn0, tn1, tn2, tn3, tn4, tn5, List.range_succ, List.filter,
    List.getD]

theorem ce_emissions :
    emissionList (grid 2 1) ceValues 0 = [(4, 3), (4, 1), (1, 2), (1, 4)] := by
  simp only [emissionList, grid]
  norm_num [tn1, tn2, List.range_succ, ce_cell0, ce_cell1]

theorem ce_keys :
    (addIsolineState [] [] (grid 2 1) ceValues 0).cache.map Prod.fst
      = [(1, 4), (1, 2), (4, 1), (4, 3)] := by
  simp only [addIsolineState, ce_emissions]
  simp [processEmission, cacheLookup]

/-! ### Claim theorems -/

/-- Claim C1 (counterexample): with iso-value 0 on the 2×1 grid and the
field `ceValues`, the left cell isolates corner 2 and emits the shared
vertical edge as the ordered pair `(4, 1)`, while the right cell isolates
corner 0 and emits the same edge as `(1, 4)`; the ordered-pair cache
misses, so the unordered pair `{1, 4}` receives two position entries
(indices 1 and 3, both the point `(0, 0)`), refuting the claim that at
most one position entry is appended per unordered grid-vertex pair. -/
theorem add_isoline_shared_edge_two_entries :
    (addIsolineState [] [] (grid 2 1) ceValues 0).positions
      = [⟨some (-(1/2)), some (-1)⟩, ⟨some 0, some 0⟩,
        ⟨some (1/2), some 1⟩, ⟨some 0, some 0⟩] ∧
    (addIsolineState [] [] (grid 2 1) ceValues 0).indices = [0, 1, 2, 3] ∧
    cacheLookup (addIsolineState [] [] (grid 2 1) ceValues 0).cache (4, 1)
      = some 1 ∧
    cacheLookup (addIsolineState [] [] (grid 2 1) ceValues 0).cache (1, 4)
      = some 3 ∧
    ¬ (((addIsolineState [] [] (grid 2 1) ceValues 0).cache.map
          Prod.fst).countP
        (fun k => decide (k = (1, 4) ∨ k = (4, 1))) ≤ 1) := by
  refine ⟨?_, ?_, ?_, ?_, ?_⟩
  · simp only [addIsolineState, ce_emissions]
    norm_num [processEmission, cacheLookup, interpolate_coords, fdiv, grid,
      gridPositions, ceValues, tn0, tn1, tn2, tn3, tn4, tn5,
      List.range_succ, List.getD]
  · simp only [addIsolineState, ce_emissions]
    simp [processEmission, cacheLookup]
  · simp only [addIsolineState, ce_emissions]
    simp [processEmission, cacheLookup]
  · simp only [addIsolineState, ce_emissions]
    simp [processEmission, cacheLookup]
  · simp only [ce_keys]
    decide

/-- Claim C1 (amended): within one `add_isoline` pass the interpolation
cache deduplicates by the ORDERED pair of grid-vertex indices: every
ordered pair occurs at most once among the cache keys, and the number of
appended positions equals the number of cache entries, so at most one
position entry is appended per ordered pair (but not per unordered pair,
see the counterexample). -/
theorem countP_eq_le_one_of_nodup {α : Type} [DecidableEq α]
    (l : List α) (h : l.Nodup) (a : α) :
    l.countP (fun x => decide (x = a)) ≤ 1 := by
  induction l with
  | nil => simp
  | cons b rest ih =>
      rw [List.countP_cons]
      simp only [List.nodup_cons] at h
      by_cases hba : b = a
      · subst hba
        have hz : rest.countP (fun x => decide (x = b)) = 0 := by
          rw [List.countP_eq_zero]
          intro x hx
          simp only [decide_eq_true_eq]
          intro hxb
          subst hxb
          exact h.1 hx
        simp [hz]
      · have hle : rest.countP (fun x => decide (x = a)) ≤ 1 := ih h.2
        simp only [hba, decide_eq_true_eq]
        simp [hba]
        omega

theorem add_isoline_dedup_by_ordered_pair (iso_positions : List OVec2)
    (iso_indices : List ℕ) (g : Grid) (values : List ℚ) (L : ℚ)
    (key : Int × Int) :
    ((addIsolineState iso_positions iso_indices g values L).cache.map
        Prod.fst).countP (fun k2 => decide (k2 = key)) ≤ 1 ∧
    (addIsolineState iso_positions iso_indices g values L).positions.length
      = iso_positions.length + (addIsolineState iso_positions iso_indices g values L).cache.length := by
  constructor
  · have hnodup := foldl_process_cache_nodup g values L
      (emissionList g values L) ⟨[], iso_positions, iso_indices⟩ (by simp)
    exact countP_eq_le_one_of_nodup _ hnodup key
  · have h := foldl_process_pos_cache_len g values L
      (emissionList g values L) ⟨[], iso_positions, iso_indices⟩
    simpa using h

/-- Claim C2: for a cell whose corner differences have exactly two
strictly positive entries, the classifier emits the crossings `(0,3)` and
`(1,2)` when `d0*d1 > 0`, otherwise `(0,1)` and `(2,3)` when `d0*d3 > 0`,
otherwise all four crossings `(0,1),(1,2),(0,3),(2,3)` (the bow-tie
saddle), exactly as in the `case 2` branch of `add_isoline`. -/
theorem needsInterpolation_two_positive (d : ℕ → ℚ)
    (h2 : positiveCount d = 2) :
    (0 < d 0 * d 1 → needsInterpolation d = [(0, 3), (1, 2)]) ∧
    (¬ 0 < d 0 * d 1 → 0 < d 0 * d 3 →
      needsInterpolation d = [(0, 1), (2, 3)]) ∧
    (¬ 0 < d 0 * d 1 → ¬ 0 < d 0 * d 3 →
      needsInterpolation d = [(0, 1), (1, 2), (0, 3), (2, 3)]) := by
  have key : needsInterpolation d
      = (if 0 < d 0 * d 1 then [(0, 3), (1, 2)]
        else if 0 < d 0 * d 3 then [(0, 1), (2, 3)]
        else [(0, 1), (1, 2), (0, 3), (2, 3)]) := by
    simp only [needsInterpolation, h2]
    norm_num
  rw [key]
  exact ⟨fun h => by rw [if_pos h],
    fun h1 h3 => by rw [if_neg h1, if_pos h3],
    fun h1 h3 => by rw [if_neg h1, if_neg h3]⟩

/-- Corner differences with exactly two positive entries (corners 0 and 1),
used to instantiate the two-positive classification theorem. -/
def dTwoPos : ℕ → ℚ := fun k => [1, 1, -1, -1].getD k 0

/-- Witness for claim C2 at the concrete corner differences
`(1, 1, -1, -1)`. -/
theorem needsInterpolation_two_positive_witness :
    positiveCount dTwoPos = 2 ∧
    ((0 < dTwoPos 0 * dTwoPos 1 →
       needsInterpolation dTwoPos = [(0, 3), (1, 2)]) ∧
     (¬ 0 < dTwoPos 0 * dTwoPos 1 → 0 < dTwoPos 0 * dTwoPos 3 →
       needsInterpolation dTwoPos = [(0, 1), (2, 3)]) ∧
     (¬ 0 < dTwoPos 0 * dTwoPos 1 → ¬ 0 < dTwoPos 0 * dTwoPos 3 →
       needsInterpolation dTwoPos = [(0, 1), (1, 2), (0, 3), (2, 3)])) :=
  ⟨by decide, needsInterpolation_two_positive dTwoPos (by decide)⟩

/-- Claim C3: `calculate_isolines` processes exactly `isolines_count`
levels; the k-th level (1-based) is
`min + (max - min) * k / (isolines_count + 1)`, and when `min < max` every
level lies strictly between `min` and `max`. -/
theorem isoline_levels_spec (fv : FunctionValues) (n : Int) (hn : 1 ≤ n) :
    (isolineLevels fv n).length = n.toNat ∧
    (∀ k : ℕ, 1 ≤ k → k ≤ n.toNat →
      (isolineLevels fv n).getD (k - 1) 0
        = fv.min_value
          + (fv.max_value - fv.min_value) * (k : ℚ) / ((n : ℚ) + 1)) ∧
    (fv.min_value < fv.max_value →
      ∀ L ∈ isolineLevels fv n, fv.min_value < L ∧ L < fv.max_value) := by
  refine ⟨by simp [isolineLevels], ?_, ?_⟩
  · intro k hk1 hk2
    unfold isolineLevels
    rw [List.getD_eq_getElem _ _ (by simp; omega), List.getElem_map,
      List.getElem_range]
    have hc : ((k - 1 : ℕ) : ℚ) + 1 = (k : ℚ) := by
      have h1 : ((k - 1 : ℕ) : ℚ) = (k : ℚ) - 1 := by
        push_cast [Nat.cast_sub hk1]
        ring
      rw [h1]; ring
    rw [hc]
  · intro hlt L hL
    unfold isolineLevels at hL
    simp only [List.mem_map, List.mem_range] at hL
    obtain ⟨i, hi, rfl⟩ := hL
    have hnq : (1 : ℚ) ≤ (n : ℚ) := by exact_mod_cast hn
    have hn1 : (0 : ℚ) < (n : ℚ) + 1 := by linarith
    have hd : (0 : ℚ) < fv.max_value - fv.min_value := by linarith
    have hi1 : (0 : ℚ) < (i : ℚ) + 1 := by positivity
    constructor
    · have hpos :
          0 < (fv.max_value - fv.min_value) * ((i : ℚ) + 1) / ((n : ℚ) + 1)
        := by positivity
      linarith
    · have hin : (i : ℚ) < (n : ℚ) := by
        have h1 : (i : ℤ) < n := by omega
        exact_mod_cast h1
      have hfrac : ((i : ℚ) + 1) / ((n : ℚ) + 1) < 1 := by
        rw [div_lt_one hn1]; linarith
      have hmul :
          (fv.max_value - fv.min_value) * (((i : ℚ) + 1) / ((n : ℚ) + 1))
            < (fv.max_value - fv.min_value) * 1 :=
        mul_lt_mul_of_pos_left hfrac hd
      rw [mul_one] at hmul
      rw [mul_div_assoc]
      linarith

/-- A sampled-field record with `min = 0 < 1 = max` and no stored
vertices, used to instantiate level-choice statements. -/
def fvW : FunctionValues := ⟨[], [], 0, 1⟩

/-- Witness for claim C3 at `min = 0`, `max = 1`, `isolines_count = 2`. -/
theorem isoline_levels_spec_witness :
    1 ≤ (2 : Int) ∧
    ((isolineLevels fvW 2).length = (2 : Int).toNat ∧
     (∀ k : ℕ, 1 ≤ k → k ≤ (2 : Int).toNat →
       (isolineLevels fvW 2).getD (k - 1) 0
         = fvW.min_value
           + (fvW.max_value - fvW.min_value) * (k : ℚ)
             / (((2 : Int) : ℚ) + 1)) ∧
     (fvW.min_value < fvW.max_value →
       ∀ L ∈ isolineLevels fvW 2, fvW.min_value < L ∧ L < fvW.max_value)) :=
  ⟨by decide, isoline_levels_spec fvW 2 (by decide)⟩

/-- Claim C4: for positive `width`/`height` the grid constructor produces
`(width+1)*(height+1)` vertex positions laid out row-major with
`x = 2/width * j - 1` (so `x` runs linearly over `[-1, 1]`) and
`y = -(2/height * i - 1)` (row 0 on top, `y` from `1` down to `-1`), and a
triangle index list of length `6*width*height` with every index in
`[0, (width+1)*(height+1))`. -/
theorem grid_wellformed (w h : Int) (hw : 1 ≤ w) (hh : 1 ≤ h) :
    ((grid w h).positions.length : ℤ) = (w + 1) * (h + 1) ∧
    (∀ i j : ℕ, i ≤ h.toNat → j ≤ w.toNat →
      (grid w h).positions.getD (i * (w.toNat + 1) + j) ⟨0, 0⟩
        = ⟨2 / (w : ℚ) * (j : ℚ) - 1, -(2 / (h : ℚ) * (i : ℚ) - 1)⟩) ∧
    ((grid w h).indices.length : ℤ) = 6 * w * h ∧
    (∀ idx ∈ (grid w h).indices, 0 ≤ idx ∧ idx < (w + 1) * (h + 1)) := by
  have hw1 : (w + 1).toNat = w.toNat + 1 := by omega
  have hh1 : (h + 1).toNat = h.toNat + 1 := by omega
  have hwc : (w.toNat : ℤ) = w := by omega
  have hhc : (h.toNat : ℤ) = h := by omega
  refine ⟨?_, ?_, ?_, ?_⟩
  · show ((gridPositions w h).length : ℤ) = (w + 1) * (h + 1)
    unfold gridPositions
    rw [length_flatMap_const _ _ ((w + 1).toNat)
      (fun x _ => by rw [List.length_map, List.length_range]),
      List.length_range]
    push_cast [hw1, hh1]
    rw [hwc, hhc]; ring
  · intro i j hi hj
    show (gridPositions w h).getD _ _ = _
    unfold gridPositions
    rw [← hw1, getD_flatMap_rows ((w + 1).toNat) ((h + 1).toNat) _
      (fun x => by rw [List.length_map, List.length_range]) i j _
      (by omega) (by omega)]
    rw [List.getD_eq_getElem _ _ (by simp; omega), List.getElem_map,
      List.getElem_range]
  · show ((gridIndices w h).length : ℤ) = 6 * w * h
    unfold gridIndices
    rw [length_flatMap_const _ _ (w.toNat * 6)
      (fun x _ => by
        rw [length_flatMap_const _ _ 6 (fun y _ => by simp),
          List.length_range]),
      List.length_range]
    push_cast
    rw [hwc, hhc]; ring
  · intro idx hidx
    show 0 ≤ idx ∧ idx < (w + 1) * (h + 1)
    have hmem : idx ∈ gridIndices w h := hidx
    unfold gridIndices at hmem
    simp only [List.mem_flatMap, List.mem_range] at hmem
    obtain ⟨i, hi, j, hj, hsix⟩ := hmem
    have hi' : (i : ℤ) ≤ h - 1 := by omega
    have hj' : (j : ℤ) ≤ w - 1 := by omega
    have hi0 : (0 : ℤ) ≤ (i : ℤ) := Int.natCast_nonneg i
    have hj0 : (0 : ℤ) ≤ (j : ℤ) := Int.natCast_nonneg j
    have hkey : (i : ℤ) * (w + 1) ≤ (h - 1) * (w + 1) :=
      mul_le_mul_of_nonneg_right hi' (by omega)
    have hkey0 : (0 : ℤ) ≤ (i : ℤ) * (w + 1) :=
      mul_nonneg hi0 (by omega)
    have hexp : (h - 1) * (w + 1) + 2 * w + 1 < (w + 1) * (h + 1) := by
      ring_nf; omega
    simp only [List.mem_cons, List.not_mem_nil, or_false] at hsix
    rcases hsix with rfl | rfl | rfl | rfl | rfl | rfl <;>
      constructor <;> omega

/-- Witness for claim C4 on the 1×1 grid. -/
theorem grid_wellformed_witness :
    1 ≤ (1 : Int) ∧ 1 ≤ (1 : Int) ∧
    (((grid 1 1).positions.length : ℤ) = (1 + 1) * (1 + 1) ∧
     (∀ i j : ℕ, i ≤ (1 : Int).toNat → j ≤ (1 : Int).toNat →
       (grid 1 1).positions.getD (i * ((1 : Int).toNat + 1) + j) ⟨0, 0⟩
         = ⟨2 / ((1 : Int) : ℚ) * (j : ℚ) - 1,
            -(2 / ((1 : Int) : ℚ) * (i : ℚ) - 1)⟩) ∧
     ((grid 1 1).indices.length : ℤ) = 6 * 1 * 1 ∧
     (∀ idx ∈ (grid 1 1).indices, 0 ≤ idx ∧ idx < (1 + 1) * (1 + 1))) :=
  ⟨by decide, by decide, grid_wellformed 1 1 (by decide) (by decide)⟩

/-- Claim C5: when `interpolate_coords` is invoked with both endpoint
values equal to the iso-value, the unguarded division `0/0` makes the
varying coordinate non-finite (NaN), contradicting the required `t = 0`
snap-to-A behaviour; the constant coordinate is still copied. -/
theorem interpolate_coords_equal_values_nan (c1 c2 : Vec2) (L : ℚ) :
    interpolate_coords c1 c2 L L L
      = if c1.y = c2.y then ⟨none, some c1.y⟩ else ⟨some c1.x, none⟩ := by
  unfold interpolate_coords
  split <;> simp [fdiv]

/-- Claim C6: on a degenerate field (`min = max`) the color mapping
divides by zero, so every channel of every vertex color is non-finite
(NaN) instead of the required fixed neutral color. -/
theorem value_to_color_degenerate_nan (value m : ℚ) :
    value_to_color value m m = (none, none, none) := by
  simp [value_to_color, fdiv]

/-- Claim C7 (counterexample): constructing the grid with malformed
`width = -1` is not rejected — it silently produces a degenerate grid with
empty position and index lists, and `calculate_isolines` with negative
`isolines_count` silently produces an empty contour set; no error path
exists in either constructor. -/
theorem grid_invalid_constructs :
    grid (-1) 5 = ⟨-1, 5, [], []⟩ ∧
    calculate_isolines (grid (-1) 5) ⟨[], [], 0, 0⟩ (-1) = ⟨-1, [], []⟩ :=
  ⟨rfl, rfl⟩

/-- Claim C7 (amended): the core performs no validation at all: a
malformed configuration is neither rejected nor clamped — the grid
constructor stores negative dimensions unchanged and yields empty
position/index lists, and `calculate_isolines` stores a negative count
unchanged and yields an empty contour set; range clamping is done by the
caller, not the core. -/
theorem core_accepts_malformed_config (w h : Int) (hw : w < 0)
    (g : Grid) (fv : FunctionValues) (n : Int) (hn : n < 0) :
    (grid w h).width = w ∧ (grid w h).height = h ∧
    (grid w h).positions = [] ∧ (grid w h).indices = [] ∧
    (calculate_isolines g fv n).count = n ∧
    (calculate_isolines g fv n).positions = [] ∧
    (calculate_isolines g fv n).indices = [] := by
  have hw1 : (w + 1).toNat = 0 := by omega
  have hwt : w.toNat = 0 := by omega
  have hnt : n.toNat = 0 := by omega
  have hlev : isolineLevels fv n = [] := by
    unfold isolineLevels
    rw [hnt]
    simp
  refine ⟨rfl, rfl, ?_, ?_, ?_, ?_, ?_⟩
  · show gridPositions w h = []
    unfold gridPositions
    rw [hw1]
    simp
  · show gridIndices w h = []
    unfold gridIndices
    rw [hwt]
    simp
  · show (calculate_isolines g fv n).count = n
    unfold calculate_isolines
    rw [hlev]
    rfl
  · show (calculate_isolines g fv n).positions = []
    unfold calculate_isolines
    rw [hlev]
    rfl
  · show (calculate_isolines g fv n).indices = []
    unfold calculate_isolines
    rw [hlev]
    rfl

/-- A sampled-field record with the degenerate `min = max = 0`. -/
def fvW0 : FunctionValues := ⟨[], [], 0, 0⟩

/-- Witness for the amended claim C7 at `width = -1`, `height = 5`,
`isolines_count = -1`. -/
theorem core_accepts_malformed_config_witness :
    (-1 : Int) < 0 ∧ (-1 : Int) < 0 ∧
    ((grid (-1) 5).width = -1 ∧ (grid (-1) 5).height = 5 ∧
     (grid (-1) 5).positions = [] ∧ (grid (-1) 5).indices = [] ∧
     (calculate_isolines (grid 1 1) fvW0 (-1)).count = -1 ∧
     (calculate_isolines (grid 1 1) fvW0 (-1)).positions = [] ∧
     (calculate_isolines (grid 1 1) fvW0 (-1)).indices = []) :=
  ⟨by decide, by decide,
    core_accepts_malformed_config (-1) 5 (by decide) (grid 1 1) fvW0 (-1)
      (by decide)⟩

/-- The all-zero metaball, used as the out-of-range default for list
reads in statements about `apply_movement`. -/
def defaultBall : Metaball := ⟨⟨0, 0⟩, ⟨0, 0⟩, 0, 0⟩

/-- Claim C8: `apply_movement` transforms every source in place: the
position is first advanced by `dt * direction` on each axis, then each
axis direction component is negated exactly when the post-update absolute
coordinate exceeds 5, and reflection never changes the magnitude of a
direction component. -/
theorem apply_movement_spec (dt : ℚ) (balls : List Metaball) (k : ℕ)
    (hk : k < balls.length) :
    (apply_movement dt balls).length = balls.length ∧
    (apply_movement dt balls).getD k defaultBall
      = applyMovementBall dt (balls.getD k defaultBall) ∧
    (∀ b : Metaball,
      (applyMovementBall dt b).position.x
        = b.position.x + dt * b.direction.x ∧
      (applyMovementBall dt b).position.y
        = b.position.y + dt * b.direction.y ∧
      ((applyMovementBall dt b).direction.x
        = if 5 < |b.position.x + dt * b.direction.x| then -b.direction.x
          else b.direction.x) ∧
      ((applyMovementBall dt b).direction.y
        = if 5 < |b.position.y + dt * b.direction.y| then -b.direction.y
          else b.direction.y) ∧
      |(applyMovementBall dt b).direction.x| = |b.direction.x| ∧
      |(applyMovementBall dt b).direction.y| = |b.direction.y|) := by
  refine ⟨by simp [apply_movement], ?_, ?_⟩
  · unfold apply_movement
    rw [List.getD_eq_getElem _ _ (by simpa using hk), List.getElem_map,
      List.getD_eq_getElem _ _ hk]
  · intro b
    refine ⟨rfl, rfl, rfl, rfl, ?_, ?_⟩
    · show |if 5 < |b.position.x + dt * b.direction.x| then -b.direction.x
          else b.direction.x| = |b.direction.x|
      split_ifs <;> simp [abs_neg]
    · show |if 5 < |b.position.y + dt * b.direction.y| then -b.direction.y
          else b.direction.y| = |b.direction.y|
      split_ifs <;> simp [abs_neg]

/-- A metaball just inside the boundary, moving right: one unit step puts
it past `x = 5`, so the x direction flips. -/
def ballW : Metaball := ⟨⟨9/2, 0⟩, ⟨1, 0⟩, 1, 1⟩

/-- Witness for claim C8 at `dt = 1` on the single source `ballW`. -/
theorem apply_movement_spec_witness :
    (0 : ℕ) < [ballW].length ∧
    ((apply_movement 1 [ballW]).length = [ballW].length ∧
     (apply_movement 1 [ballW]).getD 0 defaultBall
       = applyMovementBall 1 ([ballW].getD 0 defaultBall) ∧
     (∀ b : Metaball,
       (applyMovementBall 1 b).position.x
         = b.position.x + 1 * b.direction.x ∧
       (applyMovementBall 1 b).position.y
         = b.position.y + 1 * b.direction.y ∧
       ((applyMovementBall 1 b).direction.x
         = if 5 < |b.position.x + 1 * b.direction.x| then -b.direction.x
           else b.direction.x) ∧
       ((applyMovementBall 1 b).direction.y
         = if 5 < |b.position.y + 1 * b.direction.y| then -b.direction.y
           else b.direction.y) ∧
       |(applyMovementBall 1 b).direction.x| = |b.direction.x| ∧
       |(applyMovementBall 1 b).direction.y| = |b.direction.y|)) :=
  ⟨by decide, apply_movement_spec 1 [ballW] 0 (by decide)⟩

/-- Claim C9: contour extraction is deterministic and depends only on the
grid, the sampled values, the min/max, and the isoline count: two calls on
inputs that agree on those (the color arrays may differ) produce identical
position and index lists. -/
theorem calculate_isolines_deterministic (g1 g2 : Grid)
    (fv1 fv2 : FunctionValues) (n1 n2 : Int) (hg : g1 = g2)
    (hv : fv1.values = fv2.values) (hmin : fv1.min_value = fv2.min_value)
    (hmax : fv1.max_value = fv2.max_value) (hn : n1 = n2) :
    (calculate_isolines g1 fv1 n1).positions
      = (calculate_isolines g2 fv2 n2).positions ∧
    (calculate_isolines g1 fv1 n1).indices
      = (calculate_isolines g2 fv2 n2).indices := by
  subst hg hn
  obtain ⟨v1, c1, mn1, mx1⟩ := fv1
  obtain ⟨v2, c2, mn2, mx2⟩ := fv2
  obtain rfl : v1 = v2 := hv
  obtain rfl : mn1 = mn2 := hmin
  obtain rfl : mx1 = mx2 := hmax
  exact ⟨rfl, rfl⟩

/-- A one-vertex sampled field with empty color array. -/
def fvA : FunctionValues := ⟨[1], [], 0, 1⟩

/-- The same sampled field as `fvA` except for a different color array. -/
def fvB : FunctionValues := ⟨[1], [(some 1, some 1, some 1)], 0, 1⟩

/-- Witness for claim C9: identical values/min/max but different color
arrays give identical contour output. -/
theorem calculate_isolines_deterministic_witness :
    grid 1 1 = grid 1 1 ∧ fvA.values = fvB.values ∧
    fvA.min_value = fvB.min_value ∧ fvA.max_value = fvB.max_value ∧
    (1 : Int) = 1 ∧
    ((calculate_isolines (grid 1 1) fvA 1).positions
       = (calculate_isolines (grid 1 1) fvB 1).positions ∧
     (calculate_isolines (grid 1 1) fvA 1).indices
       = (calculate_isolines (grid 1 1) fvB 1).indices) :=
  ⟨rfl, rfl, rfl, rfl, rfl,
    calculate_isolines_deterministic (grid 1 1) (grid 1 1) fvA fvB 1 1
      rfl rfl rfl rfl rfl⟩

/-- Claim C10: the contour output is well-formed for line-list drawing:
every emitted index is a valid position-list offset, the index count is
even (consecutive pairs form whole segments), and a zero isoline count
yields empty buffers. -/
theorem calculate_isolines_wellformed (g : Grid) (fv : FunctionValues)
    (n : Int) (hn : 0 ≤ n) :
    (∀ i ∈ (calculate_isolines g fv n).indices,
        i < (calculate_isolines g fv n).positions.length) ∧
    Even (calculate_isolines g fv n).indices.length ∧
    (n = 0 → (calculate_isolines g fv n).positions = []
      ∧ (calculate_isolines g fv n).indices = []) := by
  obtain ⟨h1, h2⟩ := calc_isolines_fold_inv g fv (isolineLevels fv n)
    ⟨n, [], []⟩ (by simp) ⟨0, rfl⟩
  exact ⟨h1, h2, fun hzero => by subst hzero; exact ⟨rfl, rfl⟩⟩

/-- Witness for claim C10 on the 1×1 grid with isoline count 0. -/
theorem calculate_isolines_wellformed_witness :
    (0 : Int) ≤ 0 ∧
    ((∀ i ∈ (calculate_isolines (grid 1 1) fvW0 0).indices,
        i < (calculate_isolines (grid 1 1) fvW0 0).positions.length) ∧
     Even (calculate_isolines (grid 1 1) fvW0 0).indices.length ∧
     ((0 : Int) = 0 →
       (calculate_isolines (grid 1 1) fvW0 0).positions = []
       ∧ (calculate_isolines (grid 1 1) fvW0 0).indices = [])) :=
  ⟨by decide, calculate_isolines_wellformed (grid 1 1) fvW0 0 (by decide)⟩
